import Mathlib

/-!
Verification of the capability-resolution layer of openclaw-mini.

The development shallowly embeds the TypeScript sources:
  tool-policy.ts        (normalizeToolName, compilePattern, matchesAny, isToolAllowed)
  skills.ts             (sanitizeCommandName, resolveUniqueCommandName,
                         buildSkillCommandSpecs, skill merge, findSkillCommand,
                         resolveCommandInvocation)
  skill-primitives.ts   (loadSkillsFromDir, loadSkillFromFile, extractFrontmatter,
                         escapeXml, formatSkillsForPrompt)

JavaScript strings are modelled as Lean `String` (lists of characters); the
JavaScript string primitives used by the sources (trim, toLowerCase, slice,
replace with the concrete regexes appearing in the code) are modelled
character-by-character below, restricted to ASCII case mapping.
-/

set_option maxRecDepth 10000

-- ===================== Definitions =====================

/-- The single-quote character (code point 39). -/
def squote : Char := Char.ofNat 39

/-- The left-brace character (code point 123). -/
def lbraceChar : Char := Char.ofNat 123

/-- The right-brace character (code point 125). -/
def rbraceChar : Char := Char.ofNat 125

/-- Whitespace as recognised by the JavaScript `trim` / `\s` class, restricted
to the ASCII range: space, tab, newline, carriage return, vertical tab,
form feed. -/
def isJsWs (c : Char) : Bool :=
  c.toNat == 32 || c.toNat == 9 || c.toNat == 10 || c.toNat == 13 ||
  c.toNat == 11 || c.toNat == 12

/-- ASCII lower-casing of one character, the effect of JavaScript
`toLowerCase` on ASCII input. -/
def jsCharToLower (c : Char) : Char :=
  if 65 ≤ c.toNat ∧ c.toNat ≤ 90 then Char.ofNat (c.toNat + 32) else c

/-- JavaScript `String.prototype.toLowerCase` (ASCII fragment). -/
def jsToLower (s : String) : String := ⟨s.data.map jsCharToLower⟩

/-- Drop leading JavaScript whitespace. -/
def trimLeftChars (l : List Char) : List Char := l.dropWhile isJsWs

/-- Drop trailing JavaScript whitespace. -/
def trimRightChars (l : List Char) : List Char := (l.reverse.dropWhile isJsWs).reverse

/-- JavaScript `String.prototype.trim`. -/
def jsTrim (s : String) : String := ⟨trimRightChars (trimLeftChars s.data)⟩


/-- Source: `normalizeToolName(name) = name.trim().toLowerCase()`. -/
def normalizeToolName (name : String) : String := jsToLower (jsTrim name)

/-- The tool policy shape `{allow?: string[], deny?: string[]}`. -/
structure ToolPolicy where
  allow : Option (List String)
  deny : Option (List String)

/-- Characters escaped by `normalized.replace(/[.*+?^${}()|[\]\\]/g, "\\$&")`. -/
def isRegexSpecial (c : Char) : Bool :=
  c == '.' || c == '*' || c == '+' || c == '?' || c == '^' || c == '$' ||
  c == lbraceChar || c == rbraceChar || c == '(' || c == ')' || c == '|' ||
  c == '[' || c == ']' || c == '\\'

/-- Step 1 of the escape chain: prefix every regex-special character with a
backslash (`replace(/[.*+?^${}()|[\]\\]/g, "\\$&")`). -/
def escapeRegex (l : List Char) : List Char :=
  l.flatMap (fun c => if isRegexSpecial c then ['\\', c] else [c])

/-- Step 2 of the escape chain: `replaceAll("\\*", ".*")`, a left-to-right
scan replacing each occurrence of backslash-star by dot-star. -/
def unescapeStar : List Char → List Char
  | [] => []
  | [c] => [c]
  | c1 :: c2 :: rest =>
    if c1 = '\\' ∧ c2 = '*' then '.' :: '*' :: unescapeStar rest
    else c1 :: unescapeStar (c2 :: rest)

/-- Tokens of the restricted regular-expression language that
`compilePattern` can generate between the anchors: escaped literals,
a lone dot (any character), and dot-star (any sequence). -/
inductive RTok where
  | lit (c : Char)
  | anyChar
  | anySeq
deriving DecidableEq

/-- Unescaped characters that carry meta meaning in a JavaScript regex body
other than the dot (which is handled separately). -/
def isRegexMeta (c : Char) : Bool :=
  c == '*' || c == '+' || c == '?' || c == '(' || c == ')' || c == '[' ||
  c == ']' || c == lbraceChar || c == rbraceChar || c == '|' || c == '^' ||
  c == '$'

/-- Tokenize a regex body of the restricted language: a backslash escapes the
next character, a dot followed by a star is an any-sequence token, a lone dot
is an any-character token, any other non-meta character is a literal.
Returns `none` on constructs outside the fragment (these never arise from
`compilePattern`). -/
def tokenize : List Char → Option (List RTok)
  | [] => some []
  | [c] =>
    if c = '\\' then none
    else if c = '.' then some [RTok.anyChar]
    else if isRegexMeta c then none
    else some [RTok.lit c]
  | c1 :: c2 :: rest =>
    if c1 = '\\' then (tokenize rest).map (fun ts => RTok.lit c2 :: ts)
    else if c1 = '.' ∧ c2 = '*' then (tokenize rest).map (fun ts => RTok.anySeq :: ts)
    else if c1 = '.' then (tokenize (c2 :: rest)).map (fun ts => RTok.anyChar :: ts)
    else if isRegexMeta c1 then none
    else (tokenize (c2 :: rest)).map (fun ts => RTok.lit c1 :: ts)

/-- Full-string matching of a token list against a character list; this is the
semantics of `new RegExp("^" + body + "$").test(s)` for bodies in the
restricted language. An any-sequence token consumes an arbitrary prefix, so it
matches exactly when the remaining tokens match some suffix. -/
def rmatch : List RTok → List Char → Bool
  | [], s => s.isEmpty
  | RTok.lit c :: ts, s =>
    match s with
    | [] => false
    | x :: xs => c == x && rmatch ts xs
  | RTok.anyChar :: ts, s =>
    match s with
    | [] => false
    | _ :: xs => rmatch ts xs
  | RTok.anySeq :: ts, s => s.tails.any (fun suf => rmatch ts suf)

/-- Semantics of `RegExp.prototype.test` for the anchored regexes built by
`compilePattern`: the body (the part between `^` and `$`) must match the whole
string. -/
def rtest (body : List Char) (s : List Char) : Bool :=
  match tokenize body with
  | some ts => rmatch ts s
  | none => false

/-- The three-tier compiled pattern: `"all" | "exact" | "regex"`. The regex
variant stores the body of the anchored regex source built by the code. -/
inductive CompiledPattern where
  | all
  | exact (value : String)
  | regex (value : List Char)
deriving DecidableEq

/-- Source: `compilePattern(pattern)` — normalize; empty means exact-empty; a
lone star matches everything; no star means exact match; otherwise escape all
regex-special characters, then turn each escaped star back into dot-star, and
anchor the result start-to-end. -/
def compilePattern (pattern : String) : CompiledPattern :=
  let normalized := normalizeToolName pattern
  if normalized = "" then CompiledPattern.exact ""
  else if normalized = "*" then CompiledPattern.all
  else if ¬ (normalized.data.contains '*') then CompiledPattern.exact normalized
  else CompiledPattern.regex (unescapeStar (escapeRegex normalized.data))

/-- Source: `compilePatterns(patterns) = patterns.map(compilePattern)`. -/
def compilePatterns (patterns : List String) : List CompiledPattern :=
  patterns.map compilePattern

/-- Source: `matchesAny(name, patterns)` — true if any compiled pattern
matches the (already normalized) name. -/
def matchesAny (name : String) (patterns : List CompiledPattern) : Bool :=
  patterns.any (fun pat =>
    match pat with
    | CompiledPattern.all => true
    | CompiledPattern.exact v => name == v
    | CompiledPattern.regex v => rtest v name.data)

/-- Source: `isToolAllowed(name, policy)` — no policy allows everything;
otherwise deny wins, an empty allow list allows everything, and a non-empty
allow list must match. -/
def isToolAllowed (name : String) (policy : Option ToolPolicy) : Bool :=
  match policy with
  | none => true
  | some p =>
    let normalized := normalizeToolName name
    let deny := compilePatterns (p.deny.getD [])
    let allow := compilePatterns (p.allow.getD [])
    if matchesAny normalized deny then false
    else if allow.length = 0 then true
    else matchesAny normalized allow


/-- The Skill record produced by the scanner (skill-primitives.ts). -/
structure Skill where
  name : String
  description : String
  filePath : String
  baseDir : String
  source : String
  disableModelInvocation : Bool
deriving DecidableEq

/-- The two independent invocation channels. -/
structure SkillInvocationPolicy where
  userInvocable : Bool
  disableModelInvocation : Bool
deriving DecidableEq

/-- The enriched entry: scanner Skill plus orchestration metadata. -/
structure SkillEntry where
  skill : Skill
  frontmatter : List (String × String)
  invocation : SkillInvocationPolicy
deriving DecidableEq

/-- A synthesized slash-command. -/
structure SkillCommandSpec where
  name : String
  skillName : String
  description : String
deriving DecidableEq

/-- A successful command resolution. -/
structure SkillMatch where
  command : SkillCommandSpec
  args : Option String
deriving DecidableEq


/-- Model of `replace(/X+/g, r)` for a one-character replacement: every
maximal run of characters of the class becomes the single character `r`. The
flag records whether the previous character was in the class. -/
def collapseRunsGo (inClass : Char → Bool) (r : Char) : Bool → List Char → List Char
  | _, [] => []
  | inRun, c :: rest =>
    if inClass c then
      (if inRun then [] else [r]) ++ collapseRunsGo inClass r true rest
    else c :: collapseRunsGo inClass r false rest

/-- Collapse every maximal run of class characters to one `r`. -/
def collapseRuns (inClass : Char → Bool) (r : Char) (l : List Char) : List Char :=
  collapseRunsGo inClass r false l

/-- The sanitized-command alphabet `[a-z0-9_]`. -/
def isCmdChar (c : Char) : Bool :=
  (97 ≤ c.toNat && c.toNat ≤ 122) || (48 ≤ c.toNat && c.toNat ≤ 57) ||
  c.toNat == 95

/-- Source constant `COMMAND_MAX_LENGTH = 32`. -/
def COMMAND_MAX_LENGTH : Nat := 32

/-- Source constant `COMMAND_FALLBACK = "skill"`. -/
def COMMAND_FALLBACK : String := "skill"

/-- Source constant `DESCRIPTION_MAX_LENGTH = 100`. -/
def DESCRIPTION_MAX_LENGTH : Nat := 100

/-- The chained replaces of `sanitizeCommandName` before the truncation and
fallback: lower-case, collapse runs outside `[a-z0-9_]` to one underscore,
collapse underscore runs, trim leading and trailing underscores. -/
def sanitizeNormalized (raw : String) : List Char :=
  let lowered := raw.data.map jsCharToLower
  let step1 := collapseRuns (fun c => !(isCmdChar c)) '_' lowered
  let step2 := collapseRuns (fun c => c == '_') '_' step1
  ((step2.dropWhile (fun c => c == '_')).reverse.dropWhile (fun c => c == '_')).reverse

/-- Source: `sanitizeCommandName(raw)` — the normalized form truncated to 32
characters, with the reserved literal `"skill"` for an empty result. -/
def sanitizeCommandName (raw : String) : String :=
  let sliced := (sanitizeNormalized raw).take COMMAND_MAX_LENGTH
  if sliced.isEmpty then COMMAND_FALLBACK else ⟨sliced⟩

/-- Loop of `resolveUniqueCommandName`: the source iterates `i = 2 .. 999`
(998 iterations); here `fuel` counts the remaining iterations (initially 998)
while `i` carries the source loop counter. Exhausted fuel yields the `_x`
fallback, which is not checked against `used`. -/
def resolveUniqueGo (base : String) (used : List String) : Nat → Nat → String
  | 0, _ => (⟨base.data.take (Nat.max 1 (COMMAND_MAX_LENGTH - 2))⟩ : String) ++ "_x"
  | fuel + 1, i =>
    let suffix := "_" ++ Nat.repr i
    let maxBase := Nat.max 1 (COMMAND_MAX_LENGTH - suffix.length)
    let candidate := (⟨base.data.take maxBase⟩ : String) ++ suffix
    if used.contains (jsToLower candidate) then resolveUniqueGo base used fuel (i + 1)
    else candidate

/-- Source: `resolveUniqueCommandName(base, used)`. -/
def resolveUniqueCommandName (base : String) (used : List String) : String :=
  if ¬ (used.contains (jsToLower base)) then base
  else resolveUniqueGo base used 998 2

/-- The per-entry loop of `buildSkillCommandSpecs`; `used` carries the
lower-cased names already taken in this pass (the JS `Set`). -/
def buildGo : List SkillEntry → List String → List SkillCommandSpec
  | [], _ => []
  | entry :: rest, used =>
    let base := sanitizeCommandName entry.skill.name
    let unique := resolveUniqueCommandName base used
    let rawDesc := if jsTrim entry.skill.description = "" then entry.skill.name
                   else jsTrim entry.skill.description
    let description :=
      if DESCRIPTION_MAX_LENGTH < rawDesc.length then
        (⟨rawDesc.data.take (DESCRIPTION_MAX_LENGTH - 1)⟩ : String) ++ "…"
      else rawDesc
    ⟨unique, entry.skill.name, description⟩ :: buildGo rest (jsToLower unique :: used)

/-- Source: `buildSkillCommandSpecs(entries)` — filter the user-invocable
entries and synthesize one spec per entry in order. -/
def buildSkillCommandSpecs (entries : List SkillEntry) : List SkillCommandSpec :=
  buildGo (entries.filter (fun e => e.invocation.userInvocable != false)) []


/-- JavaScript `Map.set` for string keys: overwrite in place preserving
insertion order, otherwise append. -/
def mapSet (m : List (String × Skill)) (k : String) (v : Skill) :
    List (String × Skill) :=
  if m.any (fun p => p.1 == k) then
    m.map (fun p => if p.1 == k then (k, v) else p)
  else m ++ [(k, v)]

/-- The merge portion of `loadSkillEntries`: managed skills are inserted
first, workspace skills second, into one name-keyed map; the result is the
value list in insertion order. -/
def mergeSkills (managedSkills workspaceSkills : List Skill) : List Skill :=
  ((workspaceSkills.foldl (fun m s => mapSet m s.name s)
      (managedSkills.foldl (fun m s => mapSet m s.name s) []))).map (fun p => p.2)


/-- The class `[\s_]` of `normalizeForLookup`. -/
def isWsOrUnderscore (c : Char) : Bool := isJsWs c || c == '_'

/-- Source: `normalizeForLookup(value) =
value.trim().toLowerCase().replace(/[\s_]+/g, "-")`. -/
def normalizeForLookup (value : String) : String :=
  ⟨collapseRuns isWsOrUnderscore '-' ((jsToLower (jsTrim value)).data)⟩

/-- Source: `findSkillCommand(commands, rawName)` — one pass over the
commands, first entry hitting any of the four tests wins: exact lowered
command name, exact lowered skill name, normalized command name, normalized
skill name. -/
def findSkillCommand (commands : List SkillCommandSpec) (rawName : String) :
    Option SkillCommandSpec :=
  let trimmed := jsTrim rawName
  if trimmed = "" then none
  else
    let lowered := jsToLower trimmed
    let normalized := normalizeForLookup trimmed
    commands.find? (fun entry =>
      jsToLower entry.name == lowered ||
      jsToLower entry.skillName == lowered ||
      normalizeForLookup entry.name == normalized ||
      normalizeForLookup entry.skillName == normalized)

/-- Model of matching `/^([^\s]+)(?:\s+([\s\S]+))?$/` against a character
list: the first group is the maximal leading run of non-whitespace characters
(it must be non-empty); the optional second group is the remainder after the
following whitespace run. If that remainder is empty, the greedy whitespace
run backs off one character, so the second group is the final whitespace
character; with no following characters at all the group is absent. -/
def tokenSplit (l : List Char) : Option (List Char × Option (List Char)) :=
  let g1 := l.takeWhile (fun c => !(isJsWs c))
  let tail := l.dropWhile (fun c => !(isJsWs c))
  if g1.isEmpty then none
  else
    match tail with
    | [] => some (g1, none)
    | _ :: _ =>
      let g2 := tail.dropWhile isJsWs
      if g2.isEmpty then some (g1, some (tail.drop (tail.length - 1)))
      else some (g1, some g2)

/-- Source: `skillMatch[2]?.trim() || undefined` — a missing or
whitespace-only tail yields no argument string. -/
def optArgs (t : Option (List Char)) : Option String :=
  match t with
  | none => none
  | some l => if jsTrim ⟨l⟩ = "" then none else some (jsTrim ⟨l⟩)

/-- Source: `resolveCommandInvocation(input, commands)` — trim, require the
slash prefix (the `startsWith("/")` check and the `^\/` of the regex are one
test here), parse the prefixed token; the reserved token `skill` dispatches
through `findSkillCommand` on the following token, any other token is
compared strictly (case-insensitively) against sanitized command names. -/
def resolveCommandInvocation (input : String) (commands : List SkillCommandSpec) :
    Option SkillMatch :=
  let trimmed := jsTrim input
  match trimmed.data with
  | '/' :: rest =>
    match tokenSplit rest with
    | none => none
    | some (g1, g2) =>
      let commandName := jsToLower (jsTrim ⟨g1⟩)
      if commandName = "" then none
      else if commandName = "skill" then
        let remainder := jsTrim ⟨(g2.getD [])⟩
        if remainder = "" then none
        else
          match tokenSplit remainder.data with
          | none => none
          | some (t1, t2) =>
            match findSkillCommand commands ⟨t1⟩ with
            | none => none
            | some cmd => some ⟨cmd, optArgs t2⟩
      else
        match commands.find? (fun entry => jsToLower entry.name == commandName) with
        | none => none
        | some cmd => some ⟨cmd, optArgs g2⟩
  | _ => none


/-- A managed-source skill named with spaces and capitals. -/
def dsM : Skill :=
  ⟨"Deploy Service", "Deploys the service", "/managed/deploy/SKILL.md",
   "/managed/deploy", "managed", false⟩

/-- A workspace-source skill whose name is the sanitized form of dsM. -/
def dsW : Skill :=
  ⟨"deploy_service", "Workspace deploy", "/ws/skills/deploy/SKILL.md",
   "/ws/skills/deploy", "workspace", false⟩

/-- An enriched entry with the default invocation policy (user-invocable,
model-invocable), as produced by the enricher for a file without policy
keys. -/
def mkEntry (s : Skill) : SkillEntry := ⟨s, [], ⟨true, false⟩⟩


/-- A skill entry named `a`, user-invocable, used to exercise collision
resolution on many same-base inputs. -/
def eA : SkillEntry := mkEntry ⟨"a", "a skill", "/m/a/SKILL.md", "/m/a", "managed", false⟩

/-- The 1000 names that `resolveUniqueCommandName` can ever return for the
base `a`: the base itself, the 998 suffixed candidates `a_2` … `a_999`, and
the unchecked fallback `a_x`. -/
def sameBaseNamePool : List String :=
  "a" :: ((List.range' 2 998).map (fun i => "a_" ++ Nat.repr i) ++ ["a_x"])


/-- The per-character escape table `XML_ESCAPE` applied by `escapeXml`. -/
def escapeXmlChar (c : Char) : List Char :=
  if c = '&' then "&amp;".data
  else if c = '<' then "&lt;".data
  else if c = '>' then "&gt;".data
  else if c = '"' then "&quot;".data
  else if c = squote then "&apos;".data
  else [c]

/-- Source: `escapeXml(str) = str.replace(/[&<>"']/g, ch => XML_ESCAPE[ch])`. -/
def escapeXml (str : String) : String := ⟨str.data.flatMap escapeXmlChar⟩

/-- Source: `formatSkillsForPrompt(skills)` — filter out skills with
`disableModelInvocation`, return the empty string when nothing remains,
otherwise render the fixed preamble, the wrapper tag and one record per
skill with escaped name, description and location fields. -/
def formatSkillsForPrompt (skills : List Skill) : String :=
  let visible := skills.filter (fun s => !s.disableModelInvocation)
  if visible.isEmpty then ""
  else
    let header : List String :=
      ["\n\nThe following skills provide specialized instructions for specific tasks.",
       "Use the read tool to load a skill's file when the task matches its description.",
       "",
       "<available_skills>"]
    let skillLines := visible.flatMap (fun s =>
      ["  <skill>",
       "    <name>" ++ escapeXml s.name ++ "</name>",
       "    <description>" ++ escapeXml s.description ++ "</description>",
       "    <location>" ++ escapeXml s.filePath ++ "</location>",
       "  </skill>"])
    String.intercalate "\n" (header ++ skillLines ++ ["</available_skills>"])


/-- True when every ampersand in the list begins one of the five XML
entities. -/
def ampSafe : List Char → Bool
  | [] => true
  | c :: rest =>
    (if c = '&' then
      ("amp;".data.isPrefixOf rest || "lt;".data.isPrefixOf rest ||
       "gt;".data.isPrefixOf rest || "quot;".data.isPrefixOf rest ||
       "apos;".data.isPrefixOf rest)
     else true) && ampSafe rest

/-- True when none of the four bracket or quote structural characters
occurs. -/
def noRawStructural (l : List Char) : Bool :=
  l.all (fun c => c != '<' && c != '>' && c != '"' && c != squote)


/-- A finite filesystem tree: files with string contents, directories with
named entries. -/
inductive FsNode where
  | file (content : String)
  | dir (entries : List (String × FsNode))

/-- The entries of a directory node; a file has none (reading a file as a
directory fails and the failure is swallowed). -/
def FsNode.dirEntries : FsNode → List (String × FsNode)
  | FsNode.file _ => []
  | FsNode.dir es => es

/-- Whether a node is a directory. -/
def FsNode.isDir : FsNode → Bool
  | FsNode.file _ => false
  | FsNode.dir _ => true

/-- JavaScript `split("\n")` on a character list. -/
def splitLines (l : List Char) : List (List Char) :=
  match l with
  | [] => [[]]
  | c :: rest =>
    let ls := splitLines rest
    if c = '\n' then [] :: ls
    else
      match ls with
      | [] => [[c]]
      | x :: xs => (c :: x) :: xs

/-- Lazy scan of `([\s\S]*?)\r?\n---`: the characters before the earliest
position at which an optionally carriage-return prefixed newline is followed
by three dashes. -/
def scanHeaderBody : List Char → Option (List Char)
  | [] => none
  | c :: rest =>
    if ("\r\n---".data).isPrefixOf (c :: rest) then some []
    else if ("\n---".data).isPrefixOf (c :: rest) then some []
    else (scanHeaderBody rest).map (fun b => c :: b)

/-- Model of the header-block match of `extractFrontmatter`: an opening
line of three dashes (with optional carriage return before its newline),
then the lazily matched header body up to the closing three dashes. -/
def extractHeaderBlock (content : List Char) : Option (List Char) :=
  if ("---\r\n".data).isPrefixOf content then scanHeaderBody (content.drop 5)
  else if ("---\n".data).isPrefixOf content then scanHeaderBody (content.drop 4)
  else none

/-- ASCII letters, the class `[a-zA-Z]`. -/
def isAsciiLetter (c : Char) : Bool :=
  (65 ≤ c.toNat && c.toNat ≤ 90) || (97 ≤ c.toNat && c.toNat ≤ 122)

/-- The class `[\w-]`: letters, digits, underscore, hyphen. -/
def isWordOrDash (c : Char) : Bool :=
  isAsciiLetter c || (48 ≤ c.toNat && c.toNat ≤ 57) || c.toNat == 95 ||
  c.toNat == 45

/-- Line terminators that the JavaScript dot does not match (ASCII
fragment): newline and carriage return. -/
def isDotTerminator (c : Char) : Bool := c.toNat == 10 || c.toNat == 13

/-- Model of matching one line against `/^([a-zA-Z][\w-]*):\s*(.+)$/`: a
letter-led key of word characters and hyphens, a colon, a greedy whitespace
run, and a non-empty terminator-free value; when everything after the colon
is whitespace, the greedy run backs off one character provided that final
character is not a terminator. -/
def parseKvLine (line : List Char) : Option (String × List Char) :=
  match line with
  | [] => none
  | c :: rest =>
    if isAsciiLetter c then
      let keyRest := rest.takeWhile isWordOrDash
      let afterKey := rest.dropWhile isWordOrDash
      match afterKey with
      | ':' :: afterColon =>
        let ws := afterColon.takeWhile isJsWs
        let value := afterColon.dropWhile isJsWs
        match value with
        | [] =>
          (match ws.getLast? with
           | some w => if isDotTerminator w then none else some (⟨c :: keyRest⟩, [w])
           | none => none)
        | _ :: _ =>
          if value.any isDotTerminator then none
          else some (⟨c :: keyRest⟩, value)
      | _ => none
    else none

/-- The quote characters stripped from values: double and single quote. -/
def isQuoteChar (c : Char) : Bool := c.toNat == 34 || c.toNat == 39

/-- Model of `value.replace(/^["']|["']$/g, "")`: drop one leading and one
trailing quote character. -/
def stripQuotes (l : List Char) : List Char :=
  match l with
  | [] => []
  | c :: rest =>
    if isQuoteChar c then
      match rest.getLast? with
      | some d => if isQuoteChar d then rest.dropLast else rest
      | none => []
    else
      match l.getLast? with
      | some d => if isQuoteChar d then l.dropLast else l
      | none => l

/-- Lookup in a parsed header: later lines override earlier ones (JavaScript
object assignment), so the last binding wins. -/
def fmGet (fm : List (String × String)) (k : String) : Option String :=
  (fm.reverse.find? (fun p => p.1 == k)).map (fun p => p.2)

/-- Source: `extractFrontmatter(content)` — extract the delimited header
block and parse each `key: value` line, stripping one layer of quotes. -/
def extractFrontmatter (content : String) : List (String × String) :=
  match extractHeaderBlock content.data with
  | none => []
  | some body =>
    (splitLines body).filterMap (fun line =>
      (parseKvLine line).map (fun kv => (kv.1, (⟨stripQuotes kv.2⟩ : String))))

/-- Source: the shared boolean parser `parseBool(value, fallback)`. -/
def parseBool (value : Option String) (fallback : Bool) : Bool :=
  match value with
  | none => fallback
  | some v =>
    let w := jsToLower (jsTrim v)
    if w = "true" ∨ w = "yes" ∨ w = "1" then true
    else if w = "false" ∨ w = "no" ∨ w = "0" then false
    else fallback

/-- POSIX `path.join` for one component. -/
def joinPath (dir name : String) : String := dir ++ "/" ++ name

/-- POSIX `path.basename` for the paths built here (no trailing slash). -/
def basename (p : String) : String :=
  ⟨(p.data.reverse.takeWhile (fun c => c != '/')).reverse⟩

/-- `path.basename(p, ".md")`: additionally strip a trailing `.md`. -/
def stripMdSuffix (p : String) : String :=
  if ("dm.".data).isPrefixOf p.data.reverse then ⟨p.data.take (p.data.length - 3)⟩
  else p

/-- Source: `loadSkillFromFile(filePath, baseDir, source)` — the node stands
for the result of `fs.readFile` (`none` or a directory node is a failed read,
swallowed to `null`). Name precedence: frontmatter `name`, lower-cased base
directory name, lower-cased file name without extension. A candidate without
a non-empty `description` yields nothing. `path.resolve` is the identity
here since the modelled paths are absolute. -/
def loadSkillFromFile (node : Option FsNode) (filePath baseDir source : String) :
    Option Skill :=
  match node with
  | some (FsNode.file content) =>
    let fm := extractFrontmatter content
    let name :=
      let n1 := jsTrim ((fmGet fm "name").getD "")
      if n1 ≠ "" then n1
      else
        let n2 := jsToLower (basename baseDir)
        if n2 ≠ "" then n2
        else jsToLower (stripMdSuffix (basename filePath))
    let description := jsTrim ((fmGet fm "description").getD "")
    if description = "" then none
    else some ⟨name, description, filePath, baseDir, source,
      parseBool (fmGet fm "disable-model-invocation") false⟩
  | _ => none

/-- Find a directory entry by name (the `fs.readFile` of a joined path). -/
def findEntry (entries : List (String × FsNode)) (name : String) : Option FsNode :=
  (entries.find? (fun p => p.1 == name)).map (fun p => p.2)

/-- JavaScript `name.startsWith(".")`. -/
def strStartsWithDot (name : String) : Bool := name.data.head? == some '.'

/-- JavaScript `name.endsWith(".md")`. -/
def strEndsWithMd (name : String) : Bool := ("dm.".data).isPrefixOf name.data.reverse

/-- Source: `scanSubdirs(dir, source)` — recursively collect the `SKILL.md`
of every descendant directory, skipping hidden names and `node_modules`; a
failed readdir (a file node) contributes nothing. -/
def scanSubdirs (node : FsNode) (dir source : String) : List Skill :=
  (FsNode.dirEntries node).attach.flatMap (fun pe =>
    if strStartsWithDot pe.1.1 || pe.1.1 == "node_modules" then []
    else if pe.1.2.isDir then
      (loadSkillFromFile (findEntry pe.1.2.dirEntries "SKILL.md")
          (joinPath (joinPath dir pe.1.1) "SKILL.md") (joinPath dir pe.1.1)
          source).toList ++
        scanSubdirs pe.1.2 (joinPath dir pe.1.1) source
    else [])
termination_by sizeOf node
decreasing_by
  cases node with
  | file c => exact absurd pe.2 (by intro h; cases h)
  | dir es =>
    have h1 : sizeOf pe.1 < sizeOf es := List.sizeOf_lt_of_mem pe.2
    obtain ⟨⟨a, b⟩, hm⟩ := pe
    simp only [FsNode.dir.sizeOf_spec]
    simp only [Prod.mk.sizeOf_spec] at h1
    omega

/-- Source: `loadSkillsFromDir({dir, source})` — the optional root stands
for `fs.readdir(dir)`: an absent directory, or a file (readdir throws),
yields the empty set. Root-level `.md` files and descendant `SKILL.md`
files are candidates; hidden names and `node_modules` are skipped. -/
def loadSkillsFromDir (root : Option FsNode) (dir source : String) : List Skill :=
  match root with
  | some (FsNode.dir entries) =>
    entries.flatMap (fun p =>
      if strStartsWithDot p.1 || p.1 == "node_modules" then []
      else if p.2.isDir then
        (loadSkillFromFile (findEntry p.2.dirEntries "SKILL.md")
            (joinPath (joinPath dir p.1) "SKILL.md") (joinPath dir p.1)
            source).toList ++
          scanSubdirs p.2 (joinPath dir p.1) source
      else if strEndsWithMd p.1 then
        (loadSkillFromFile (some p.2) (joinPath dir p.1) dir source).toList
      else [])
  | _ => []


/-- The glob token of one pattern character. -/
def tokOf (c : Char) : RTok := if c = '*' then RTok.anySeq else RTok.lit c

/-- Modelled from the spec: glob matching in which the wildcard matches any
sequence and every other character, a literal dot included, matches only
itself; the reference semantics for compiled wildcard patterns. -/
def globSpec : List Char → List Char → Bool
  | [], s => s.isEmpty
  | p :: ps, s =>
    if p = '*' then s.tails.any (fun suf => globSpec ps suf)
    else
      match s with
      | [] => false
      | c :: t => (p == c) && globSpec ps t

-- ===================== Theorems =====================


/-- Reading back the code point of a character built from a valid code point
below the surrogate range. -/
theorem char_toNat_ofNat {n : Nat} (h : n < 55296) : (Char.ofNat n).toNat = n := by
  rw [Char.ofNat, dif_pos (Or.inl h)]
  rfl

/-- The code point of the ASCII lower-casing of a character. -/
theorem jsCharToLower_toNat (c : Char) :
    (jsCharToLower c).toNat =
      if 65 ≤ c.toNat ∧ c.toNat ≤ 90 then c.toNat + 32 else c.toNat := by
  by_cases hc : 65 ≤ c.toNat ∧ c.toNat ≤ 90
  · rw [jsCharToLower, if_pos hc, if_pos hc]
    exact char_toNat_ofNat (by omega)
  · rw [jsCharToLower, if_neg hc, if_neg hc]

/-- Lower-casing does not change whether a character is whitespace. -/
theorem isJsWs_jsCharToLower (c : Char) : isJsWs (jsCharToLower c) = isJsWs c := by
  have h := jsCharToLower_toNat c
  by_cases hc : 65 ≤ c.toNat ∧ c.toNat ≤ 90
  · rw [if_pos hc] at h
    simp only [isJsWs, h]
    rw [Bool.eq_iff_iff]
    simp only [Bool.or_eq_true, beq_iff_eq]
    omega
  · rw [if_neg hc] at h
    simp only [isJsWs, h]

/-- ASCII lower-casing is idempotent. -/
theorem jsCharToLower_idem (c : Char) :
    jsCharToLower (jsCharToLower c) = jsCharToLower c := by
  by_cases hc : 65 ≤ c.toNat ∧ c.toNat ≤ 90
  · have hv : (Char.ofNat (c.toNat + 32)).toNat = c.toNat + 32 :=
      char_toNat_ofNat (by omega)
    unfold jsCharToLower
    rw [if_pos hc, if_neg (by rw [hv]; omega)]
  · unfold jsCharToLower
    rw [if_neg hc, if_neg hc]

/-- A dropped-while list is empty or starts with a non-satisfying element. -/
theorem dropWhile_shape {α : Type} (p : α → Bool) (l : List α) :
    l.dropWhile p = [] ∨ ∃ a t, l.dropWhile p = a :: t ∧ p a = false := by
  induction l with
  | nil => exact Or.inl rfl
  | cons c rest ih =>
    by_cases hc : p c = true
    · rw [List.dropWhile_cons, if_pos hc]
      exact ih
    · exact Or.inr ⟨c, rest, by rw [List.dropWhile_cons, if_neg hc], by simpa using hc⟩

/-- Dropping a prefix twice drops it once. -/
theorem dropWhile_self_idem {α : Type} (p : α → Bool) (l : List α) :
    (l.dropWhile p).dropWhile p = l.dropWhile p := by
  rcases dropWhile_shape p l with h | ⟨a, t, h, ha⟩
  · rw [h]; rfl
  · rw [h, List.dropWhile_cons, if_neg (by simp [ha])]

/-- Dropping a prefix from a list ending in a non-satisfying element keeps
that last element. -/
theorem dropWhile_append_singleton {α : Type} (p : α → Bool) (a : α)
    (ha : p a = false) (w : List α) :
    ∃ z, (w ++ [a]).dropWhile p = z ++ [a] := by
  induction w with
  | nil => exact ⟨[], by simp [List.dropWhile_cons, ha]⟩
  | cons c rest ih =>
    by_cases hc : p c = true
    · obtain ⟨z, hz⟩ := ih
      exact ⟨z, by rw [List.cons_append, List.dropWhile_cons, if_pos hc, hz]⟩
    · exact ⟨c :: rest, by rw [List.cons_append, List.dropWhile_cons, if_neg hc]⟩

/-- Dropping a prefix never lengthens a list. -/
theorem dropWhile_length_le {α : Type} (p : α → Bool) (l : List α) :
    (l.dropWhile p).length ≤ l.length := by
  induction l with
  | nil => exact Nat.le_refl _
  | cons c rest ih =>
    rw [List.dropWhile_cons]
    by_cases hc : p c = true
    · rw [if_pos hc]
      exact Nat.le_trans ih (Nat.le_succ _)
    · rw [if_neg hc]

/-- Left-trimming a right-trimmed, already left-trimmed list does nothing. -/
theorem trimLeft_trimRight (l : List Char) (h : trimLeftChars l = l) :
    trimLeftChars (trimRightChars l) = trimRightChars l := by
  cases l with
  | nil => rfl
  | cons a t =>
    have ha : isJsWs a = false := by
      by_cases hws : isJsWs a = true
      · exfalso
        unfold trimLeftChars at h
        rw [List.dropWhile_cons, if_pos hws] at h
        have hle : (t.dropWhile isJsWs).length ≤ t.length :=
          dropWhile_length_le isJsWs t
        rw [h] at hle
        simp at hle
      · simpa using hws
    obtain ⟨z, hz⟩ := dropWhile_append_singleton isJsWs a ha t.reverse
    unfold trimRightChars trimLeftChars
    rw [List.reverse_cons, hz, List.reverse_append]
    simp only [List.reverse_cons, List.reverse_nil, List.nil_append,
      List.cons_append, List.nil_append]
    rw [List.dropWhile_cons, if_neg (by simp [ha])]

/-- Right-trimming is idempotent. -/
theorem trimRight_idem (l : List Char) :
    trimRightChars (trimRightChars l) = trimRightChars l := by
  unfold trimRightChars
  rw [List.reverse_reverse, dropWhile_self_idem]

/-- Left-trimming commutes with lower-casing. -/
theorem trimLeft_map_lower (l : List Char) :
    trimLeftChars (l.map jsCharToLower) = (trimLeftChars l).map jsCharToLower := by
  have hpf : (isJsWs ∘ jsCharToLower) = isJsWs := funext isJsWs_jsCharToLower
  unfold trimLeftChars
  rw [List.dropWhile_map, hpf]

/-- Right-trimming commutes with lower-casing. -/
theorem trimRight_map_lower (l : List Char) :
    trimRightChars (l.map jsCharToLower) = (trimRightChars l).map jsCharToLower := by
  have hpf : (isJsWs ∘ jsCharToLower) = isJsWs := funext isJsWs_jsCharToLower
  unfold trimRightChars
  rw [← List.map_reverse, List.dropWhile_map, hpf, ← List.map_reverse]

/-- The tool-name normalization of the source is idempotent. -/
theorem normalizeToolName_idem (name : String) :
    normalizeToolName (normalizeToolName name) = normalizeToolName name := by
  unfold normalizeToolName jsToLower jsTrim
  congr 1
  show
    ((⟨trimRightChars (trimLeftChars
        ((⟨(trimRightChars (trimLeftChars name.data)).map jsCharToLower⟩ : String).data))⟩ :
      String) : String).data.map jsCharToLower =
    (trimRightChars (trimLeftChars name.data)).map jsCharToLower
  have hu : trimLeftChars (trimRightChars (trimLeftChars name.data)) =
      trimRightChars (trimLeftChars name.data) :=
    trimLeft_trimRight (trimLeftChars name.data) (dropWhile_self_idem isJsWs name.data)
  show (trimRightChars (trimLeftChars
      ((trimRightChars (trimLeftChars name.data)).map jsCharToLower))).map jsCharToLower =
    (trimRightChars (trimLeftChars name.data)).map jsCharToLower
  rw [trimLeft_map_lower, hu, trimRight_map_lower, trimRight_idem, List.map_map]
  congr 1
  exact funext jsCharToLower_idem


/-- C10: the tool-access decision is invariant under trimming and
lower-casing of the queried tool name: for every policy and name,
`isToolAllowed` of the name equals `isToolAllowed` of its trimmed
lower-cased form. -/
theorem c10_normalization_invariance (name : String) (policy : Option ToolPolicy) :
    isToolAllowed name policy = isToolAllowed (normalizeToolName name) policy := by
  cases policy with
  | none => rfl
  | some p =>
    simp only [isToolAllowed]
    rw [normalizeToolName_idem]


/-- C1: the decision procedure of `isToolAllowed` — no policy allows; a deny
match denies regardless of the allow list; an empty allow list allows; a
non-empty allow list decides by allow matching. In particular
`isAllowed("exec", {deny:["exec*"]})` and
`isAllowed("exec_python", {allow:["exec*"], deny:["exec_python"]})` are both
false. -/
theorem c1_policy_decision :
    (∀ name : String, isToolAllowed name none = true) ∧
    (∀ (name : String) (p : ToolPolicy),
      matchesAny (normalizeToolName name) (compilePatterns (p.deny.getD [])) = true →
      isToolAllowed name (some p) = false) ∧
    (∀ (name : String) (p : ToolPolicy),
      matchesAny (normalizeToolName name) (compilePatterns (p.deny.getD [])) = false →
      p.allow.getD [] = [] →
      isToolAllowed name (some p) = true) ∧
    (∀ (name : String) (p : ToolPolicy),
      matchesAny (normalizeToolName name) (compilePatterns (p.deny.getD [])) = false →
      p.allow.getD [] ≠ [] →
      isToolAllowed name (some p) =
        matchesAny (normalizeToolName name) (compilePatterns (p.allow.getD []))) ∧
    isToolAllowed "exec" (some ⟨none, some ["exec*"]⟩) = false ∧
    isToolAllowed "exec_python" (some ⟨some ["exec*"], some ["exec_python"]⟩) = false := by
  refine ⟨fun _ => rfl, ?_, ?_, ?_, by decide, by decide⟩
  · intro name p h
    simp only [isToolAllowed]
    rw [if_pos h]
  · intro name p h h2
    simp only [isToolAllowed]
    rw [if_neg (by rw [h]; simp), h2]
    simp [compilePatterns]
  · intro name p h h2
    simp only [isToolAllowed]
    have hlen : ¬ ((compilePatterns (p.allow.getD [])).length = 0) := by
      simpa [compilePatterns, List.length_eq_zero] using h2
    rw [if_neg (by rw [h]; simp), if_neg hlen]

/-- Witness for C1 at concrete inputs. -/
theorem c1_policy_decision_witness :
    isToolAllowed "exec" (some ⟨none, some ["exec*"]⟩) = false ∧
    isToolAllowed "tool" (some ⟨none, none⟩) = true ∧
    isToolAllowed "ab" (some ⟨some ["a*"], none⟩) =
      matchesAny (normalizeToolName "ab") (compilePatterns ["a*"]) := by
  refine ⟨?_, ?_, ?_⟩
  · exact c1_policy_decision.2.1 "exec" ⟨none, some ["exec*"]⟩ (by decide)
  · exact c1_policy_decision.2.2.1 "tool" ⟨none, none⟩ (by decide) rfl
  · exact c1_policy_decision.2.2.2.1 "ab" ⟨some ["a*"], none⟩ (by decide) (by decide)


/-- A trailing any-sequence token matches every string. -/
theorem rmatch_anySeq_last (l : List Char) :
    rmatch [RTok.anySeq] l = true := by
  induction l with
  | nil => rfl
  | cons c t ih =>
    simp only [rmatch] at ih ⊢
    simp only [List.tails, List.any_cons]
    rw [ih]
    simp

/-- Characterization of the compiled form of the pattern `a.b*`: the name must
start with the three literal characters `a`, `.`, `b` and may continue
arbitrarily. -/
theorem rmatch_abstar (l : List Char) :
    rmatch [RTok.lit 'a', RTok.lit '.', RTok.lit 'b', RTok.anySeq] l = true ↔
      ∃ t, l = 'a' :: '.' :: 'b' :: t := by
  cases l with
  | nil => simp [rmatch]
  | cons c1 r1 =>
    cases r1 with
    | nil => simp [rmatch]
    | cons c2 r2 =>
      cases r2 with
      | nil => simp [rmatch]
      | cons c3 r3 =>
        simp only [rmatch, Bool.and_eq_true, beq_iff_eq, List.cons.injEq]
        constructor
        · rintro ⟨h1, h2, h3, _⟩
          exact ⟨r3, h1.symm, h2.symm, h3.symm, rfl⟩
        · rintro ⟨t, h1, h2, h3, h4⟩
          subst h1 h2 h3
          refine ⟨rfl, rfl, rfl, ?_⟩
          have := rmatch_anySeq_last r3
          simp only [rmatch] at this
          exact this


/-- Every character emitted by the run-collapser is the replacement character
or a class-negative character of the input. -/
theorem collapseRunsGo_mem (inClass : Char → Bool) (r : Char) :
    ∀ (flag : Bool) (l : List Char), ∀ c ∈ collapseRunsGo inClass r flag l,
      c = r ∨ (c ∈ l ∧ inClass c = false) := by
  intro flag l
  induction l generalizing flag with
  | nil => intro c hc; cases hc
  | cons d rest ih =>
    intro c hc
    simp only [collapseRunsGo] at hc
    by_cases hd : inClass d = true
    · rw [if_pos hd] at hc
      rcases List.mem_append.mp hc with h | h
      · left
        cases flag with
        | false => simpa using h
        | true => cases h
      · rcases ih true c h with h2 | ⟨h2, h3⟩
        · exact Or.inl h2
        · exact Or.inr ⟨List.mem_cons_of_mem d h2, h3⟩
    · rw [if_neg hd] at hc
      rcases List.mem_cons.mp hc with h | h
      · subst h
        exact Or.inr ⟨List.mem_cons_self c rest, by simpa using hd⟩
      · rcases ih false c h with h2 | ⟨h2, h3⟩
        · exact Or.inl h2
        · exact Or.inr ⟨List.mem_cons_of_mem d h2, h3⟩

/-- Every character of the normalized sanitized name is in `[a-z0-9_]`. -/
theorem sanitizeNormalized_mem (raw : String) :
    ∀ c ∈ sanitizeNormalized raw, isCmdChar c = true := by
  intro c hc
  unfold sanitizeNormalized at hc
  rw [List.mem_reverse] at hc
  have hc2 := (List.dropWhile_sublist (fun c => c == '_')).subset hc
  rw [List.mem_reverse] at hc2
  have hc3 := (List.dropWhile_sublist (fun c => c == '_')).subset hc2
  rcases collapseRunsGo_mem (fun c => c == '_') '_' false _ c hc3 with h | ⟨h, _⟩
  · subst h; decide
  · rcases collapseRunsGo_mem (fun c => !(isCmdChar c)) '_' false _ c h with h2 | ⟨_, h3⟩
    · subst h2; decide
    · simpa using h3

/-- C4: every sanitized command name has length between 1 and 32 and uses
only the alphabet `[a-z0-9_]`; an input whose normalized form is empty maps
exactly to the fallback literal `"skill"`. -/
theorem c4_sanitize_bounds :
    (∀ raw : String,
      1 ≤ (sanitizeCommandName raw).length ∧
      (sanitizeCommandName raw).length ≤ 32 ∧
      ∀ c ∈ (sanitizeCommandName raw).data, isCmdChar c = true) ∧
    (∀ raw : String,
      sanitizeNormalized raw = [] → sanitizeCommandName raw = COMMAND_FALLBACK) := by
  constructor
  · intro raw
    unfold sanitizeCommandName
    by_cases he : ((sanitizeNormalized raw).take COMMAND_MAX_LENGTH).isEmpty = true
    · rw [if_pos he]
      refine ⟨by decide, by decide, by decide⟩
    · rw [if_neg he]
      have hne : (sanitizeNormalized raw).take COMMAND_MAX_LENGTH ≠ [] := by
        simpa using he
      refine ⟨?_, ?_, ?_⟩
      · show 1 ≤ ((sanitizeNormalized raw).take COMMAND_MAX_LENGTH).length
        have := List.length_eq_zero.not.mpr hne
        omega
      · show ((sanitizeNormalized raw).take COMMAND_MAX_LENGTH).length ≤ 32
        rw [List.length_take]
        exact Nat.le_trans (Nat.min_le_left _ _) (Nat.le_refl _)
      · intro c hc
        exact sanitizeNormalized_mem raw c
          (List.take_subset COMMAND_MAX_LENGTH _ hc)
  · intro raw h
    unfold sanitizeCommandName
    rw [h]
    rfl

/-- Witness for C4 at concrete inputs: a degenerate name falls back to
`"skill"`, and a regular name uses the constrained alphabet. -/
theorem c4_sanitize_bounds_witness :
    sanitizeCommandName "!!!" = COMMAND_FALLBACK ∧ isCmdChar 'd' = true := by
  constructor
  · exact c4_sanitize_bounds.2 "!!!" (by decide)
  · exact (c4_sanitize_bounds.1 "deploy").2.2 'd' (by decide)

/-- C5: the merge is last-write-wins keyed case-sensitively on the name: a
higher-priority record fully replaces a lower-priority one of the same name;
names differing in case or punctuation are distinct keys and both survive,
and synthesis in discovery order yields `deploy_service` and
`deploy_service_2`. -/
theorem c5_merge_last_write_wins :
    (∀ a b : Skill, a.name = b.name → mergeSkills [a] [b] = [b]) ∧
    mergeSkills [dsM] [dsW] = [dsM, dsW] ∧
    (buildSkillCommandSpecs ((mergeSkills [dsM] [dsW]).map mkEntry)).map
        SkillCommandSpec.name = ["deploy_service", "deploy_service_2"] := by
  refine ⟨?_, by decide, by decide⟩
  intro a b h
  simp [mergeSkills, mapSet, h]

/-- Witness for C5: two skills sharing the name `"foo"` merge to the
higher-priority record. -/
theorem c5_merge_last_write_wins_witness :
    mergeSkills [⟨"foo", "low", "/m/a.md", "/m", "managed", false⟩]
        [⟨"foo", "high", "/w/a.md", "/w", "workspace", false⟩] =
      [⟨"foo", "high", "/w/a.md", "/w", "workspace", false⟩] :=
  c5_merge_last_write_wins.1
    ⟨"foo", "low", "/m/a.md", "/m", "managed", false⟩
    ⟨"foo", "high", "/w/a.md", "/w", "workspace", false⟩ rfl


/-- C6 counterexample: with the command list synthesized from the skill
`"Deploy Service"`, the input `/skill Deploy args here` does not resolve at
all — the target token `Deploy` fails all four lookup tests (none of them is
a prefix match), so the claimed resolution to `"Deploy Service"` is false. -/
theorem c6_counterexample :
    resolveCommandInvocation "/skill Deploy args here"
      (buildSkillCommandSpecs [mkEntry dsM]) = none := by
  decide

/-- C6 amended: a target token equal to the skill name up to case,
whitespace, underscore and hyphen normalization does resolve through Grammar
A: `/skill Deploy-Service args here` resolves to the command of
`"Deploy Service"` with argument string `"args here"`; the two exact
case-insensitive tests fail for this token, so the hit comes from the
normalized comparison. -/
theorem c6_grammar_a_normalized :
    resolveCommandInvocation "/skill Deploy-Service args here"
        (buildSkillCommandSpecs [mkEntry dsM]) =
      some ⟨⟨"deploy_service", "Deploy Service", "Deploys the service"⟩,
        some "args here"⟩ ∧
    jsToLower (jsTrim "Deploy-Service") ≠ jsToLower "deploy_service" ∧
    jsToLower (jsTrim "Deploy-Service") ≠ jsToLower "Deploy Service" ∧
    normalizeForLookup "deploy_service" = normalizeForLookup "Deploy-Service" := by
  refine ⟨by decide, by decide, by decide, by decide⟩


/-- C9: the dispatch keyword `skill` shadows Grammar B. The bare input
`/skill` never resolves, whatever the command list (so a command whose
sanitized name is the literal `skill` is unreachable by direct invocation of
that token), and any successful resolution of an input whose first prefixed
token is `skill` goes through `findSkillCommand` (Grammar A), never through
the strict Grammar B comparison. -/
theorem c9_keyword_shadowing :
    (∀ commands : List SkillCommandSpec,
      resolveCommandInvocation "/skill" commands = none) ∧
    (∀ (commands : List SkillCommandSpec) (input : String) (m : SkillMatch)
        (rest g1 : List Char) (g2 : Option (List Char)),
      (jsTrim input).data = '/' :: rest →
      tokenSplit rest = some (g1, g2) →
      jsToLower (jsTrim ⟨g1⟩) = "skill" →
      resolveCommandInvocation input commands = some m →
      ∃ target : String, findSkillCommand commands target = some m.command) := by
  constructor
  · intro commands
    rfl
  · intro commands input m rest g1 g2 h1 h2 h3 h4
    simp only [resolveCommandInvocation, h1, h2, h3, if_true] at h4
    rw [if_neg (show ¬ ("skill" : String) = "" from by decide)] at h4
    by_cases hr : jsTrim ⟨g2.getD []⟩ = ""
    · rw [if_pos hr] at h4
      simp at h4
    · rw [if_neg hr] at h4
      split at h4
      · simp at h4
      · split at h4
        · simp at h4
        · rename_i s1 tok args heqts oscrut cmd hf
          injection h4 with h5
          exact ⟨⟨tok⟩, by rw [hf, ← h5]⟩

/-- Witness for C9: the bare keyword misses even when a command named
`skill` exists, and a concrete keyword-dispatched input resolves through
`findSkillCommand`. -/
theorem c9_keyword_shadowing_witness :
    resolveCommandInvocation "/skill" [⟨"skill", "Skill Named Skill", "d"⟩] = none ∧
    ∃ target : String,
      findSkillCommand [⟨"x", "X", "d"⟩] target = some ⟨"x", "X", "d"⟩ := by
  constructor
  · exact c9_keyword_shadowing.1 [⟨"skill", "Skill Named Skill", "d"⟩]
  · exact c9_keyword_shadowing.2 [⟨"x", "X", "d"⟩] "/skill x"
      ⟨⟨"x", "X", "d"⟩, none⟩ ("skill x".data) ("skill".data) (some ("x".data))
      (by decide) (by decide) (by decide) (by decide)

/-- The name pool has exactly 1000 elements. -/
theorem sameBaseNamePool_length : sameBaseNamePool.length = 1000 := by
  simp [sameBaseNamePool]

/-- Prepending the one-character string `a` to an underscore-prefixed string. -/
theorem a_append_underscore (r : String) :
    (⟨['a']⟩ : String) ++ ("_" ++ r) = "a_" ++ r := by
  obtain ⟨l⟩ := r
  rfl

/-- Taking at least one character of the one-character list `[a]` keeps it. -/
theorem take_singleton_a {k : Nat} (h : 1 ≤ k) :
    List.take k ['a'] = ['a'] := by
  cases k with
  | zero => omega
  | succ m => simp

/-- Every value of the resolver loop on base `a` lies in the name pool. -/
theorem resolveUniqueGo_a_mem :
    ∀ (fuel i : Nat) (used : List String), i = 1000 - fuel → fuel ≤ 998 →
      resolveUniqueGo "a" used fuel i ∈ sameBaseNamePool := by
  intro fuel
  induction fuel with
  | zero =>
    intro i used hi hle
    have hz : resolveUniqueGo "a" used 0 i = "a_x" := rfl
    rw [hz]
    exact List.mem_cons_of_mem _ (List.mem_append_right _ (List.mem_singleton.mpr rfl))
  | succ k ih =>
    intro i used hi hle
    simp only [resolveUniqueGo]
    have hmb : 1 ≤ Nat.max 1 (COMMAND_MAX_LENGTH - ("_" ++ Nat.repr i).length) :=
      Nat.le_max_left _ _
    have hcand :
        (⟨("a".data.take (Nat.max 1 (COMMAND_MAX_LENGTH - ("_" ++ Nat.repr i).length)))⟩ :
            String) ++ ("_" ++ Nat.repr i) = "a_" ++ Nat.repr i := by
      rw [show ("a".data : List Char) = ['a'] from rfl, take_singleton_a hmb,
        a_append_underscore]
    rw [hcand]
    by_cases hc : used.contains (jsToLower ("a_" ++ Nat.repr i)) = true
    · rw [if_pos hc]
      exact ih (i + 1) used (by omega) (by omega)
    · rw [if_neg hc]
      refine List.mem_cons_of_mem _ (List.mem_append_left _ ?_)
      refine List.mem_map.mpr ⟨i, ?_, rfl⟩
      rw [List.mem_range']
      exact ⟨i - 2, by omega, by omega⟩

/-- Every value of `resolveUniqueCommandName` on base `a` lies in the pool. -/
theorem resolveUniqueCommandName_a_mem (used : List String) :
    resolveUniqueCommandName "a" used ∈ sameBaseNamePool := by
  unfold resolveUniqueCommandName
  by_cases hc : used.contains (jsToLower "a") = true
  · rw [if_neg (by simpa using hc)]
    exact resolveUniqueGo_a_mem 998 2 used (by omega) (by omega)
  · rw [if_pos (by simpa using hc)]
    exact List.mem_cons_self _ _

/-- The synthesis loop emits one spec per entry. -/
theorem buildGo_length (l : List SkillEntry) :
    ∀ used, (buildGo l used).length = l.length := by
  induction l with
  | nil => intro used; rfl
  | cons e rest ih =>
    intro used
    simp only [buildGo, List.length_cons, ih]

/-- On replicated `a`-entries, every emitted name lies in the pool. -/
theorem buildGo_replicate_names (n : Nat) :
    ∀ (used : List String) (s : SkillCommandSpec),
      s ∈ buildGo (List.replicate n eA) used → s.name ∈ sameBaseNamePool := by
  induction n with
  | zero => intro used s hs; cases hs
  | succ k ih =>
    intro used s hs
    rw [List.replicate_succ] at hs
    simp only [buildGo] at hs
    rcases List.mem_cons.mp hs with h | h
    · rw [h]
      show resolveUniqueCommandName (sanitizeCommandName eA.skill.name) used ∈ _
      rw [show sanitizeCommandName eA.skill.name = "a" from by decide]
      exact resolveUniqueCommandName_a_mem used
    · exact ih _ s h

/-- C3 counterexample: synthesizing 1001 entries whose names all sanitize to
the same base emits a duplicate command name — the `_x` fallback is never
checked against the used set, so the 1000th and 1001st entries both receive
`a_x`. The claimed case-insensitive uniqueness fails. -/
theorem c3_duplicate_counterexample :
    ((buildSkillCommandSpecs (List.replicate 1001 eA)).Pairwise
        (fun s t => jsToLower s.name ≠ jsToLower t.name)) = False := by
  apply eq_false
  intro hpw
  have hfilter : (List.replicate 1001 eA).filter
      (fun e => e.invocation.userInvocable != false) = List.replicate 1001 eA := by
    apply List.filter_eq_self.mpr
    intro a ha
    rw [List.eq_of_mem_replicate ha]
    rfl
  have hspecs : buildSkillCommandSpecs (List.replicate 1001 eA) =
      buildGo (List.replicate 1001 eA) [] := by
    rw [buildSkillCommandSpecs, hfilter]
  have hlen : (buildSkillCommandSpecs (List.replicate 1001 eA)).length = 1001 := by
    rw [hspecs, buildGo_length]
    simp
  have hnodup : ((buildSkillCommandSpecs (List.replicate 1001 eA)).map
      (fun s => jsToLower s.name)).Nodup := by
    rw [List.Nodup, List.pairwise_map]
    exact hpw
  have hsubset : ((buildSkillCommandSpecs (List.replicate 1001 eA)).map
      (fun s => jsToLower s.name)) ⊆ sameBaseNamePool.map jsToLower := by
    intro x hx
    obtain ⟨s, hs, rfl⟩ := List.mem_map.mp hx
    refine List.mem_map.mpr ⟨s.name, ?_, rfl⟩
    rw [hspecs] at hs
    exact buildGo_replicate_names 1001 [] s hs
  have hsp := List.subperm_of_subset hnodup hsubset
  have hle := hsp.length_le
  rw [List.length_map, List.length_map, hlen, sameBaseNamePool_length] at hle
  omega

/-- A failed `contains` check means non-membership. -/
theorem contains_false_not_mem {l : List String} {a : String}
    (h : l.contains a = false) : a ∉ l := by
  simp [List.contains] at h
  exact h

/-- A resolver result whose lowered form is already used must be the `_x`
fallback (the only unchecked return). -/
theorem resolveUniqueGo_used_fallback :
    ∀ (fuel i : Nat) (base : String) (used : List String),
      jsToLower (resolveUniqueGo base used fuel i) ∈ used →
      resolveUniqueGo base used fuel i =
        (⟨base.data.take (Nat.max 1 (COMMAND_MAX_LENGTH - 2))⟩ : String) ++ "_x" := by
  intro fuel
  induction fuel with
  | zero => intro i base used _; rfl
  | succ k ih =>
    intro i base used h
    simp only [resolveUniqueGo] at h ⊢
    by_cases hc : used.contains (jsToLower
        ((⟨base.data.take (Nat.max 1 (COMMAND_MAX_LENGTH - ("_" ++ Nat.repr i).length))⟩ :
          String) ++ ("_" ++ Nat.repr i))) = true
    · rw [if_pos hc] at h ⊢
      exact ih (i + 1) base used h
    · rw [if_neg hc] at h
      exact absurd h (contains_false_not_mem (by simpa using hc))

/-- A name emitted by the synthesis loop whose lowered form was already in
the used set ends in `_x`. -/
theorem buildGo_mem_used :
    ∀ (l : List SkillEntry) (used : List String) (s : SkillCommandSpec),
      s ∈ buildGo l used → jsToLower s.name ∈ used →
      ∃ p : String, s.name = p ++ "_x" := by
  intro l
  induction l with
  | nil => intro used s hs; cases hs
  | cons e rest ih =>
    intro used s hs hmem
    simp only [buildGo] at hs
    rcases List.mem_cons.mp hs with h | h
    · rw [h] at hmem ⊢
      show ∃ p : String,
        resolveUniqueCommandName (sanitizeCommandName e.skill.name) used = p ++ "_x"
      unfold resolveUniqueCommandName at hmem ⊢
      by_cases hc : used.contains
          (jsToLower (sanitizeCommandName e.skill.name)) = true
      · rw [if_neg (by simpa using hc)] at hmem ⊢
        exact ⟨_, resolveUniqueGo_used_fallback 998 2 _ used hmem⟩
      · rw [if_pos (by simpa using hc)] at hmem
        exact absurd hmem (contains_false_not_mem (by simpa using hc))
    · exact ih _ s h (List.mem_cons_of_mem _ hmem)

/-- Any two names emitted by one synthesis loop differ case-insensitively,
unless the later one is an `_x` fallback. -/
theorem buildGo_pairwise (l : List SkillEntry) :
    ∀ used, (buildGo l used).Pairwise
      (fun s t => jsToLower s.name ≠ jsToLower t.name ∨
        ∃ p : String, t.name = p ++ "_x") := by
  induction l with
  | nil => intro used; exact List.Pairwise.nil
  | cons e rest ih =>
    intro used
    simp only [buildGo]
    refine List.Pairwise.cons ?_ (ih _)
    intro t ht
    by_cases heq : jsToLower
        (resolveUniqueCommandName (sanitizeCommandName e.skill.name) used) =
        jsToLower t.name
    · exact Or.inr (buildGo_mem_used rest _ t ht
        (by rw [← heq]; exact List.mem_cons_self _ _))
    · exact Or.inl heq

/-- C3 amended: within one synthesis pass, two distinct CommandSpecs can
share a (case-insensitive) name only when that name is an unchecked `_x`
fallback; every non-fallback name is unique. -/
theorem c3_unique_amended (entries : List SkillEntry) :
    (buildSkillCommandSpecs entries).Pairwise
      (fun s t => jsToLower s.name ≠ jsToLower t.name ∨
        ∃ p : String, t.name = p ++ "_x") := by
  rw [buildSkillCommandSpecs]
  exact buildGo_pairwise _ []

/-- One escaped chunk preserves ampersand safety of the remainder. -/
theorem ampSafe_escapeXmlChar (c : Char) (l : List Char) :
    ampSafe (escapeXmlChar c ++ l) = ampSafe l := by
  unfold escapeXmlChar
  by_cases h1 : c = '&'
  · subst h1; simp [ampSafe, List.isPrefixOf]
  · rw [if_neg h1]
    by_cases h2 : c = '<'
    · subst h2; simp [ampSafe, List.isPrefixOf]
    · rw [if_neg h2]
      by_cases h3 : c = '>'
      · subst h3; simp [ampSafe, List.isPrefixOf]
      · rw [if_neg h3]
        by_cases h4 : c = '"'
        · subst h4; simp [ampSafe, List.isPrefixOf]
        · rw [if_neg h4]
          by_cases h5 : c = squote
          · subst h5; simp [ampSafe, List.isPrefixOf, squote]
          · rw [if_neg h5]
            simp [ampSafe, h1]

/-- Structural safety distributes over appending. -/
theorem noRawStructural_append (a b : List Char) :
    noRawStructural (a ++ b) = (noRawStructural a && noRawStructural b) := by
  simp [noRawStructural, List.all_append]

/-- One escaped chunk contains no raw structural character. -/
theorem noRawStructural_escapeXmlChar (c : Char) (l : List Char) :
    noRawStructural (escapeXmlChar c ++ l) = noRawStructural l := by
  unfold escapeXmlChar
  by_cases h1 : c = '&'
  · subst h1
    rw [if_pos rfl, noRawStructural_append,
      show noRawStructural ("&amp;".data) = true from by decide, Bool.true_and]
  · rw [if_neg h1]
    by_cases h2 : c = '<'
    · subst h2
      rw [if_pos rfl, noRawStructural_append,
        show noRawStructural ("&lt;".data) = true from by decide, Bool.true_and]
    · rw [if_neg h2]
      by_cases h3 : c = '>'
      · subst h3
        rw [if_pos rfl, noRawStructural_append,
          show noRawStructural ("&gt;".data) = true from by decide, Bool.true_and]
      · rw [if_neg h3]
        by_cases h4 : c = '"'
        · subst h4
          rw [if_pos rfl, noRawStructural_append,
            show noRawStructural ("&quot;".data) = true from by decide, Bool.true_and]
        · rw [if_neg h4]
          by_cases h5 : c = squote
          · subst h5
            rw [if_pos rfl, noRawStructural_append,
              show noRawStructural ("&apos;".data) = true from by decide, Bool.true_and]
          · rw [if_neg h5]
            rw [noRawStructural_append]
            have hc : noRawStructural [c] = true := by
              simp only [noRawStructural, List.all_cons, List.all_nil, Bool.and_true,
                bne_iff_ne, ne_eq, Bool.and_eq_true, decide_eq_true_eq]
              exact ⟨⟨⟨h2, h3⟩, h4⟩, h5⟩
            rw [hc, Bool.true_and]

/-- The escaped form of any string is structurally safe. -/
theorem escapeXml_safe_chars (l : List Char) :
    noRawStructural (l.flatMap escapeXmlChar) = true ∧
    ampSafe (l.flatMap escapeXmlChar) = true := by
  induction l with
  | nil => exact ⟨rfl, rfl⟩
  | cons c rest ih =>
    rw [List.flatMap_cons, noRawStructural_escapeXmlChar, ampSafe_escapeXmlChar]
    exact ih

/-- C7: prompt formatting ignores model-invocation-disabled skills, returns
exactly the empty string when no skill remains, and escapes the five
reserved structural characters in every rendered field, so raw structural
characters from a description never reach the output unescaped. -/
theorem c7_prompt_formatting :
    (∀ skills : List Skill,
      formatSkillsForPrompt skills =
        formatSkillsForPrompt (skills.filter (fun s => !s.disableModelInvocation))) ∧
    (∀ skills : List Skill,
      skills.filter (fun s => !s.disableModelInvocation) = [] →
      formatSkillsForPrompt skills = "") ∧
    (∀ str : String, noRawStructural (escapeXml str).data = true ∧
      ampSafe (escapeXml str).data = true) := by
  refine ⟨?_, ?_, ?_⟩
  · intro skills
    have h : (skills.filter (fun s => !s.disableModelInvocation)).filter
        (fun s => !s.disableModelInvocation) =
        skills.filter (fun s => !s.disableModelInvocation) := by
      rw [List.filter_filter]
      congr 1
      funext s
      exact Bool.and_self _
    simp only [formatSkillsForPrompt, h]
  · intro skills h
    simp only [formatSkillsForPrompt, h]
    rfl
  · intro str
    exact escapeXml_safe_chars str.data

/-- Witness for C7: a list whose only skill is model-invocation-disabled
renders to the empty string. -/
theorem c7_prompt_formatting_witness :
    formatSkillsForPrompt [⟨"n", "d", "/f", "/b", "managed", true⟩] = "" :=
  c7_prompt_formatting.2.1 [⟨"n", "d", "/f", "/b", "managed", true⟩] (by decide)


/-- C8: scanning never fails — an absent root directory and an unreadable
root both yield the empty set — and a candidate file whose frontmatter has
an empty or absent description key produces no Skill record. -/
theorem c8_scan_never_fails :
    (∀ dir source : String, loadSkillsFromDir none dir source = []) ∧
    (∀ content dir source : String,
      loadSkillsFromDir (some (FsNode.file content)) dir source = []) ∧
    (∀ content filePath baseDir source : String,
      jsTrim ((fmGet (extractFrontmatter content) "description").getD "") = "" →
      loadSkillFromFile (some (FsNode.file content)) filePath baseDir source = none) := by
  refine ⟨fun _ _ => rfl, fun _ _ _ => rfl, ?_⟩
  intro content filePath baseDir src h
  simp only [loadSkillFromFile, h]
  rw [if_pos trivial]

/-- Witness for C8: a missing root scans to nothing, and a skill file whose
header has a name but no description is silently dropped. -/
theorem c8_scan_never_fails_witness :
    loadSkillsFromDir none "/missing" "managed" = [] ∧
    loadSkillFromFile (some (FsNode.file "---\nname: x\n---\nbody"))
      "/d/a.md" "/d" "managed" = none := by
  constructor
  · exact c8_scan_never_fails.1 "/missing" "managed"
  · exact c8_scan_never_fails.2.2 "---\nname: x\n---\nbody" "/d/a.md" "/d" "managed"
      (by decide)

/-- The star is regex-special. -/
theorem isRegexSpecial_star : isRegexSpecial '*' = true := by decide

/-- The backslash is regex-special. -/
theorem isRegexSpecial_backslash : isRegexSpecial '\\' = true := by decide

/-- The dot is regex-special. -/
theorem isRegexSpecial_dot : isRegexSpecial '.' = true := by decide

/-- Every meta character is also escaped by the escape step. -/
theorem isRegexMeta_special (c : Char) (h : isRegexMeta c = true) :
    isRegexSpecial c = true := by
  simp only [isRegexMeta, Bool.or_eq_true, beq_iff_eq] at h
  simp only [isRegexSpecial, Bool.or_eq_true, beq_iff_eq]
  tauto

/-- Escaped output never starts with a bare star. -/
theorem escapeRegex_head_ne_star (l : List Char) :
    escapeRegex l = [] ∨ ∃ d t, escapeRegex l = d :: t ∧ d ≠ '*' := by
  cases l with
  | nil => exact Or.inl rfl
  | cons c rest =>
    have hexp : escapeRegex (c :: rest) =
        (if isRegexSpecial c then ['\\', c] else [c]) ++ escapeRegex rest := by
      simp only [escapeRegex, List.flatMap_cons]
    by_cases hc : isRegexSpecial c = true
    · rw [if_pos hc] at hexp
      exact Or.inr ⟨'\\', _, hexp, by decide⟩
    · rw [if_neg hc] at hexp
      refine Or.inr ⟨c, _, hexp, ?_⟩
      intro he
      subst he
      exact hc isRegexSpecial_star

/-- The unescape scan walks over a character standing before escaped
output. -/
theorem unescapeStar_cons_escape (c : Char) (l : List Char) :
    unescapeStar (c :: escapeRegex l) = c :: unescapeStar (escapeRegex l) := by
  rcases escapeRegex_head_ne_star l with h | ⟨d, t, h, hd⟩
  · rw [h]
    rfl
  · rw [h]
    show unescapeStar (c :: d :: t) = c :: unescapeStar (d :: t)
    simp only [unescapeStar]
    rw [if_neg (fun hh => hd hh.2)]

/-- One escaped pattern character turns into its unescaped chunk. -/
theorem unescapeStar_escape_cons (c : Char) (l : List Char) :
    unescapeStar (escapeRegex (c :: l)) =
      (if c = '*' then ['.', '*']
       else if isRegexSpecial c = true then ['\\', c] else [c]) ++
        unescapeStar (escapeRegex l) := by
  have hexp : escapeRegex (c :: l) =
      (if isRegexSpecial c then ['\\', c] else [c]) ++ escapeRegex l := by
    simp only [escapeRegex, List.flatMap_cons]
  rw [hexp]
  by_cases h1 : c = '*'
  · subst h1
    rw [if_pos isRegexSpecial_star, if_pos rfl]
    show unescapeStar ('\\' :: '*' :: escapeRegex l) = _
    simp only [unescapeStar, if_true]
    rfl
  · rw [if_neg h1]
    by_cases h2 : isRegexSpecial c = true
    · rw [if_pos h2]
      show unescapeStar ('\\' :: c :: escapeRegex l) =
        ['\\', c] ++ unescapeStar (escapeRegex l)
      simp only [unescapeStar]
      rw [if_neg (fun hh => h1 hh.2), unescapeStar_cons_escape]
      rfl
    · rw [if_neg h2]
      show unescapeStar (c :: escapeRegex l) = [c] ++ unescapeStar (escapeRegex l)
      rw [unescapeStar_cons_escape]
      rfl

/-- Tokenizing an escaped literal. -/
theorem tokenize_escape_cons (c : Char) (w : List Char) (ts : List RTok)
    (hw : tokenize w = some ts) :
    tokenize ('\\' :: c :: w) = some (RTok.lit c :: ts) := by
  simp only [tokenize, if_true]
  rw [hw]
  rfl

/-- Tokenizing a dot-star chunk. -/
theorem tokenize_anySeq_cons (w : List Char) (ts : List RTok)
    (hw : tokenize w = some ts) :
    tokenize ('.' :: '*' :: w) = some (RTok.anySeq :: ts) := by
  simp only [tokenize, if_true]
  rw [if_neg (by decide : ¬ ('.' : Char) = '\\'), hw]
  rfl

/-- Tokenizing a plain, non-special character. -/
theorem tokenize_lit_cons (c : Char) (w : List Char) (ts : List RTok)
    (hc : isRegexSpecial c = false) (hw : tokenize w = some ts) :
    tokenize (c :: w) = some (RTok.lit c :: ts) := by
  have hbs : ¬ c = '\\' := by
    intro h
    subst h
    exact (by decide : isRegexSpecial '\\' ≠ false) hc
  have hdot : ¬ c = '.' := by
    intro h
    subst h
    exact (by decide : isRegexSpecial '.' ≠ false) hc
  have hmeta : ¬ (isRegexMeta c = true) := by
    intro hm
    rw [isRegexMeta_special c hm] at hc
    exact (by decide : (true : Bool) ≠ false) hc
  cases w with
  | nil =>
    have hts : ([] : List RTok) = ts := by
      simpa [tokenize] using hw
    subst hts
    simp only [tokenize]
    rw [if_neg hbs, if_neg hdot, if_neg hmeta]
  | cons d w' =>
    simp only [tokenize]
    rw [if_neg hbs, if_neg (fun hh => hdot hh.1), if_neg hdot, if_neg hmeta, hw]
    rfl

/-- Tokenizing the full escape chain yields one token per pattern
character: the wildcard becomes the any-sequence token, every other
character a literal. -/
theorem tokenize_escaped (l : List Char) :
    tokenize (unescapeStar (escapeRegex l)) = some (l.map tokOf) := by
  induction l with
  | nil => rfl
  | cons c rest ih =>
    rw [unescapeStar_escape_cons, List.map_cons]
    by_cases h1 : c = '*'
    · subst h1
      rw [if_pos rfl]
      rw [show tokOf '*' = RTok.anySeq from rfl]
      exact tokenize_anySeq_cons _ _ ih
    · rw [if_neg h1, show tokOf c = RTok.lit c from if_neg h1]
      by_cases h2 : isRegexSpecial c = true
      · rw [if_pos h2]
        exact tokenize_escape_cons c _ _ ih
      · rw [if_neg h2]
        exact tokenize_lit_cons c _ _ (by simpa using h2) ih

/-- The token matcher agrees with the glob reference semantics. -/
theorem rmatch_map_tokOf (l : List Char) :
    ∀ s, rmatch (l.map tokOf) s = globSpec l s := by
  induction l with
  | nil => intro s; rfl
  | cons p ps ih =>
    intro s
    by_cases hp : p = '*'
    · subst hp
      rw [List.map_cons, show tokOf '*' = RTok.anySeq from rfl]
      simp only [rmatch, globSpec, if_pos rfl]
      congr 1
      funext suf
      exact ih suf
    · rw [List.map_cons, show tokOf p = RTok.lit p from if_neg hp]
      cases s with
      | nil => simp [rmatch, globSpec, hp]
      | cons c t => simp [rmatch, globSpec, hp, ih t]

/-- C2: compiling a wildcard pattern escapes every regex-significant
character first and only then restores the wildcard, so the compiled
matcher implements exactly glob semantics over the normalized pattern — a
literal dot is never treated as matching an arbitrary character. For the
pattern `a.b*`: its compiled body is the escaped `a\.b` followed by the
any-sequence token, `a.bcd` matches, `axbcd` does not, and the accepted
names are exactly those starting with the literal prefix `a.b`. -/
theorem c2_wildcard_escaping :
    compilePattern "a.b*" = CompiledPattern.regex ("a\\.b.*".data) ∧
    matchesAny "a.bcd" [compilePattern "a.b*"] = true ∧
    matchesAny "axbcd" [compilePattern "a.b*"] = false ∧
    (∀ s : String, matchesAny s [compilePattern "a.b*"] = true ↔
      ∃ t, s.data = 'a' :: '.' :: 'b' :: t) ∧
    (∀ p s : String, (normalizeToolName p).data.contains '*' = true →
      normalizeToolName p ≠ "*" →
      matchesAny s [compilePattern p] = globSpec (normalizeToolName p).data s.data) := by
  refine ⟨by decide, by decide, by decide, ?_, ?_⟩
  · intro s
    have hc : compilePattern "a.b*" = CompiledPattern.regex ("a\\.b.*".data) := by decide
    have ht : tokenize ("a\\.b.*".data) =
        some [RTok.lit 'a', RTok.lit '.', RTok.lit 'b', RTok.anySeq] := by decide
    rw [hc]
    simp only [matchesAny, List.any_cons, List.any_nil, rtest, ht, Bool.or_false]
    exact rmatch_abstar s.data
  · intro p s h1 h2
    have hne : normalizeToolName p ≠ "" := by
      intro he
      rw [he] at h1
      exact (by decide : (("" : String).data.contains '*') ≠ true) h1
    have hcp : compilePattern p =
        CompiledPattern.regex (unescapeStar (escapeRegex (normalizeToolName p).data)) := by
      unfold compilePattern
      rw [if_neg hne, if_neg h2, if_neg (not_not_intro h1)]
    rw [hcp]
    simp only [matchesAny, List.any_cons, List.any_nil, Bool.or_false]
    show rtest (unescapeStar (escapeRegex (normalizeToolName p).data)) s.data = _
    simp only [rtest, tokenize_escaped]
    exact rmatch_map_tokOf _ s.data

/-- Witness for C2 at concrete inputs: the language characterization and the
general glob equivalence applied at the pattern `a.b*`. -/
theorem c2_wildcard_escaping_witness :
    matchesAny "a.bQQ" [compilePattern "a.b*"] = true ∧
    matchesAny "zzz" [compilePattern "a.b*"] =
      globSpec (normalizeToolName "a.b*").data ("zzz".data) := by
  constructor
  · exact (c2_wildcard_escaping.2.2.2.1 "a.bQQ").mpr ⟨['Q', 'Q'], by decide⟩
  · exact c2_wildcard_escaping.2.2.2.2 "a.b*" "zzz" (by decide) (by decide)
